import Mathlib

/-!
Verification of the fsegit version-control storage engine.

This development gives a shallow embedding of the Go sources of the
fsegit repository: the binary staging index (store/index.go), the
content-addressed object store (store client), the recursive tree
builder (cmd/commit.go), the history walker (store client) and the
commit command flows.  Go byte strings are modelled as `List Nat`
(each element a byte value), machine integers as `Nat` with explicit
reduction modulo 2^32 or 2^16 where the Go code uses uint32/uint16,
and fallible operations return `Except`/`Option`.
-/

set_option maxRecDepth 100000

deriving instance DecidableEq for Except

namespace FseGit

/-- Byte strings: Go `[]byte` / `string` values, one `Nat` per byte. -/
abbrev Bytes := List Nat

/-- Modulus for Go's uint32 arithmetic. -/
def u32mod : Nat := 4294967296

/-- Left rotation of a 32-bit word (operand assumed < 2^32). -/
def rotl32 (x s : Nat) : Nat := (Nat.lor (x <<< s) (x >>> (32 - s))) % u32mod

/-- Big-endian 32-bit word from four bytes. -/
def beWord (a b c d : Nat) : Nat := a * 16777216 + b * 65536 + c * 256 + d

/-- Big-endian byte serialization of a 32-bit word. -/
def wordBytes (w : Nat) : Bytes := [w / 16777216 % 256, w / 65536 % 256, w / 256 % 256, w % 256]

/-- Big-endian serialization of a uint32, as written by Go's binary.Write. -/
def u32be (n : Nat) : Bytes := wordBytes n

/-- Big-endian serialization of a uint16. -/
def u16be (n : Nat) : Bytes := [n / 256 % 256, n % 256]

/-- Big-endian uint32 from a 4-byte slice (Go binary.BigEndian.Uint32). -/
def beU32 (b : Bytes) : Nat :=
match b with
| [a, b2, c, d] => beWord a b2 c d
| _ => 0

/-- Big-endian uint16 from a 2-byte slice (Go binary.BigEndian.Uint16). -/
def beU16 (b : Bytes) : Nat :=
match b with
| [a, b2] => a * 256 + b2
| _ => 0

/-! SHA-1 (FIPS 180-1), modelling Go's crypto/sha1.Sum over byte lists. -/

/-- Big-endian 64-bit length trailer used by SHA-1 padding. -/
def u64be (n : Nat) : Bytes :=
  [n / 72057594037927936 % 256, n / 281474976710656 % 256, n / 1099511627776 % 256,
   n / 4294967296 % 256, n / 16777216 % 256, n / 65536 % 256, n / 256 % 256, n % 256]

/-- Number of zero bytes inserted by SHA-1 padding after the 0x80 byte. -/
def sha1PadLen (l : Nat) : Nat := (64 - ((l + 9) % 64)) % 64

/-- SHA-1 message padding to a multiple of 64 bytes. -/
def sha1Pad (m : Bytes) : Bytes :=
  m ++ [128] ++ List.replicate (sha1PadLen m.length) 0 ++ u64be (8 * m.length)

/-- Split a 64-byte block into sixteen big-endian 32-bit words. -/
def blockWords : Bytes → List Nat
| a :: b :: c :: d :: rest => beWord a b c d :: blockWords rest
| _ => []

/-- Extend the 16 block words by `n` further schedule words. -/
def sha1Extend : Nat → List Nat → List Nat
| 0, ws => ws
| n+1, ws =>
  let t := ws.length
  let w := rotl32 (Nat.xor (Nat.xor (ws.getD (t-3) 0) (ws.getD (t-8) 0))
                          (Nat.xor (ws.getD (t-14) 0) (ws.getD (t-16) 0))) 1
  sha1Extend n (ws ++ [w])

/-- SHA-1 round function (selection, parity, majority by round index). -/
def sha1F (t b c d : Nat) : Nat :=
  if t < 20 then Nat.lor (Nat.land b c) (Nat.land (Nat.xor b 4294967295) d)
  else if t < 40 then Nat.xor (Nat.xor b c) d
  else if t < 60 then Nat.lor (Nat.lor (Nat.land b c) (Nat.land b d)) (Nat.land c d)
  else Nat.xor (Nat.xor b c) d

/-- SHA-1 round constants. -/
def sha1K (t : Nat) : Nat :=
  if t < 20 then 1518500249
  else if t < 40 then 1859775393
  else if t < 60 then 2400959708
  else 3395469782

/-- The 80 compression rounds over the schedule words. -/
def sha1Rounds : List Nat → Nat → Nat × Nat × Nat × Nat × Nat → Nat × Nat × Nat × Nat × Nat
| [], _, st => st
| w :: ws, t, (a, b, c, d, e) =>
  let tmp := (rotl32 a 5 + sha1F t b c d + e + sha1K t + w) % u32mod
  sha1Rounds ws (t+1) (tmp, a, rotl32 b 30, c, d)

/-- Process the padded message 64 bytes at a time (fuel bounds the recursion
    and is instantiated with the message length, which always suffices). -/
def sha1Blocks : Nat → Bytes → Nat × Nat × Nat × Nat × Nat → Nat × Nat × Nat × Nat × Nat
| 0, _, h => h
| _+1, [], h => h
| fuel+1, msg@(_ :: _), (h0, h1, h2, h3, h4) =>
  let ws := sha1Extend 64 (blockWords (msg.take 64))
  let r := sha1Rounds ws 0 (h0, h1, h2, h3, h4)
  sha1Blocks fuel (msg.drop 64)
    ((h0 + r.1) % u32mod, (h1 + r.2.1) % u32mod, (h2 + r.2.2.1) % u32mod,
     (h3 + r.2.2.2.1) % u32mod, (h4 + r.2.2.2.2) % u32mod)

/-- SHA-1 digest of a byte list: 20 bytes.  Models Go crypto/sha1.Sum. -/
def sha1 (m : Bytes) : Bytes :=
  let p := sha1Pad m
  let r := sha1Blocks p.length p (1732584193, 4023233417, 2562383102, 271733878, 3285377520)
  wordBytes r.1 ++ wordBytes r.2.1 ++ wordBytes r.2.2.1 ++ wordBytes r.2.2.2.1 ++ wordBytes r.2.2.2.2

/-! Byte-wise string order: Go's `<` and `<=` on strings compare bytes
    lexicographically.  `bytesLe` is the non-strict version. -/

/-- Byte-wise lexicographic comparison, `x <= y` on Go strings. -/
def bytesLe : Bytes → Bytes → Bool
| [], _ => true
| _ :: _, [] => false
| a :: as, b :: bs => if a < b then true else if b < a then false else bytesLe as bs

/-! The staging index: store/index.go.  An index file is the 12-byte
    header `"DIRC" version entryCount`, the serialized entries, and a
    trailing 20-byte SHA-1 checksum of everything before it. -/

/-- Max path length representable in the low 12 bits of the flags field
    (store/index.go maxPathLength = 0xFFF). -/
def maxPathLength : Nat := 4095

/-- One staged path: store/index.go IndexEntry.  All uint32 fields are
    modelled as Nat (well-formed values are below 2^32). -/
structure IndexEntry where
  cTimeSeconds : Nat
  cTimeNanoseconds : Nat
  mTimeSeconds : Nat
  mTimeNanoseconds : Nat
  dev : Nat
  ino : Nat
  mode : Nat
  uid : Nat
  gid : Nat
  size : Nat
  hash : Bytes
  pathName : Bytes
  flags : Nat

deriving DecidableEq, Repr

/-- IndexEntry.SetPackedFlags: combines a 2-bit stage and the path length,
    silently clamping the length to maxPathLength. -/
def SetPackedFlags (e : IndexEntry) (stage : Nat) (pathLength : Nat) : IndexEntry :=
  let p := if pathLength > maxPathLength then maxPathLength else pathLength
  { e with flags := Nat.lor ((Nat.land stage 3) <<< 12) (Nat.land p maxPathLength) }

/-- The in-memory index: store/index.go Index (the filePath field is the
    on-disk location and is modelled by how the file value is threaded). -/
structure Index where
  version : Nat
  entries : List IndexEntry

deriving DecidableEq, Repr

/-- Index.AddEntry on the entry list: replace the first entry with the same
    path, else append. -/
def addEntryList : List IndexEntry → IndexEntry → List IndexEntry
| [], n => [n]
| e :: es, n => if e.pathName = n.pathName then n :: es else e :: addEntryList es n

/-- Index.AddEntry: upsert by path. -/
def AddEntry (idx : Index) (newEntry : IndexEntry) : Index :=
  { idx with entries := addEntryList idx.entries newEntry }

/-- Ordering used by WriteIndex's sort.Slice: byte-wise comparison of the
    path names (Go string `<`, made non-strict for sorting). -/
def entryLe (a b : IndexEntry) : Prop := bytesLe a.pathName b.pathName = true

instance : DecidableRel entryLe := fun a b => by
  unfold entryLe
  infer_instance

/-- The sort performed at the top of WriteIndex (sort.Slice by PathName). -/
def sortEntries (es : List IndexEntry) : List IndexEntry := List.insertionSort entryLe es

/-- The "DIRC" signature bytes. -/
def indexSignature : Bytes := [68, 73, 82, 67]

/-- On-disk padding for one entry: zero bytes making 62 + pathLen a
    multiple of 8 (padding length in 0..7). -/
def entryPadding (pathLen : Nat) : Nat := (8 - ((62 + pathLen) % 8)) % 8

/-- Serialization of a single entry as written by WriteIndex: ten uint32
    fields, the raw 20-byte hash, the uint16 flags, the raw path bytes and
    the zero padding. -/
def serializeEntry (e : IndexEntry) : Bytes :=
  u32be e.cTimeSeconds ++ u32be e.cTimeNanoseconds ++
  u32be e.mTimeSeconds ++ u32be e.mTimeNanoseconds ++
  u32be e.dev ++ u32be e.ino ++ u32be e.mode ++ u32be e.uid ++ u32be e.gid ++ u32be e.size ++
  e.hash ++ u16be e.flags ++ e.pathName ++ List.replicate (entryPadding e.pathName.length) 0

/-- Errors produced by WriteIndex. -/
inductive WriteErr where
| pathTooLong (path : Bytes)

deriving DecidableEq, Repr

/-- The entry loop of WriteIndex: serializes each entry in order, failing
    on the first path longer than maxPathLength. -/
def serializeEntries : List IndexEntry → Except WriteErr Bytes
| [] => .ok []
| e :: es =>
  if e.pathName.length > maxPathLength then .error (.pathTooLong e.pathName)
  else
    match serializeEntries es with
    | .error err => .error err
    | .ok rest => .ok (serializeEntry e ++ rest)

/-- WriteIndex: sorts the entries by path, serializes header and entries,
    appends the SHA-1 checksum of the preceding bytes, and returns the file
    contents written to disk (an error means no file is written, since the
    buffer is only flushed at the end). -/
def WriteIndex (idx : Index) : Except WriteErr Bytes :=
  let entries := sortEntries idx.entries
  match serializeEntries entries with
  | .error e => .error e
  | .ok body =>
    let content := indexSignature ++ u32be idx.version ++ u32be (entries.length % u32mod) ++ body
    .ok (content ++ sha1 content)

/-- Errors produced by ReadIndex, one per fmt.Errorf site in the source. -/
inductive ReadErr where
| tooShortForHeader
| checksumMismatch
| tooShortForChecksum
| badSignature
| unsupportedVersion (v : Nat)
| insufficientEntry (i : Nat)
| insufficientFixed (i : Nat)
| insufficientPath (i : Nat)
| insufficientPadding (i : Nat)
| trailingData

deriving DecidableEq, Repr

/-- Parse one entry at the current offset (the remaining bytes).  Mirrors
    the entry loop body of ReadIndex, including every bounds check. -/
def parseEntry (data : Bytes) (i : Nat) : Except ReadErr (IndexEntry × Bytes) :=
  if data.length = 0 then .error (.insufficientEntry i)
  else if data.length < 62 then .error (.insufficientFixed i)
  else
    let fld := fun k => beU32 ((data.drop (4*k)).take 4)
    let hash := (data.drop 40).take 20
    let flags := beU16 ((data.drop 60).take 2)
    let pathLen := Nat.land flags maxPathLength
    let rest := data.drop 62
    if rest.length < pathLen then .error (.insufficientPath i)
    else
      let path := rest.take pathLen
      let rest2 := rest.drop pathLen
      if rest2.length < entryPadding pathLen then .error (.insufficientPadding i)
      else
        .ok ({ cTimeSeconds := fld 0, cTimeNanoseconds := fld 1,
               mTimeSeconds := fld 2, mTimeNanoseconds := fld 3,
               dev := fld 4, ino := fld 5, mode := fld 6, uid := fld 7,
               gid := fld 8, size := fld 9,
               hash := hash, pathName := path, flags := flags },
              rest2.drop (entryPadding pathLen))

/-- The entry loop of ReadIndex: parse `n` entries and require the cursor to
    land exactly on the end of the data (the offset/length check after the
    loop). -/
def parseEntryList : Nat → Bytes → Nat → Except ReadErr (List IndexEntry)
| 0, data, _ => if data.length = 0 then .ok [] else .error .trailingData
| n+1, data, i =>
  match parseEntry data i with
  | .error e => .error e
  | .ok (entry, rest) =>
    match parseEntryList n rest (i+1) with
    | .error e => .error e
    | .ok es => .ok (entry :: es)

/-- Header parsing and entry loop of ReadIndex, applied after the checksum
    has been stripped. -/
def readIndexCore (data : Bytes) : Except ReadErr Index :=
  if data.take 4 ≠ indexSignature then .error .badSignature
  else
    let version := beU32 ((data.drop 4).take 4)
    if version ≠ 2 then .error (.unsupportedVersion version)
    else
      let numEntries := beU32 ((data.drop 8).take 4)
      match parseEntryList numEntries (data.drop 12) 0 with
      | .error e => .error e
      | .ok es => .ok { version := version, entries := es }

/-- ReadIndex on the raw bytes of an existing index file: length checks,
    checksum verification over all bytes except the trailing 20, then
    header and entries. -/
def readIndexData (data : Bytes) : Except ReadErr Index :=
  if data.length < 12 then .error .tooShortForHeader
  else if data.length ≥ 32 then
    let content := data.take (data.length - 20)
    let expected := data.drop (data.length - 20)
    if sha1 content ≠ expected then .error .checksumMismatch
    else readIndexCore content
  else if data.length > 12 then .error .tooShortForChecksum
  else readIndexCore data

/-- ReadIndex: a missing index file yields a fresh empty index (version 2)
    and no error; an existing file is parsed by readIndexData. -/
def ReadIndex (file : Option Bytes) : Except ReadErr Index :=
  match file with
  | none => .ok { version := 2, entries := [] }
  | some data => readIndexData data

def entryWF (e : IndexEntry) : Prop :=
  e.cTimeSeconds < u32mod ∧ e.cTimeNanoseconds < u32mod ∧
  e.mTimeSeconds < u32mod ∧ e.mTimeNanoseconds < u32mod ∧
  e.dev < u32mod ∧ e.ino < u32mod ∧ e.mode < u32mod ∧
  e.uid < u32mod ∧ e.gid < u32mod ∧ e.size < u32mod ∧
  e.flags < 65536 ∧ e.hash.length = 20 ∧
  Nat.land e.flags maxPathLength = e.pathName.length

def indexWF (idx : Index) : Prop :=
  idx.version = 2 ∧ idx.entries.length < u32mod ∧ ∀ e ∈ idx.entries, entryWF e

instance : DecidablePred entryWF := fun e => by
  unfold entryWF
  infer_instance

instance : DecidablePred indexWF := fun idx => by
  unfold indexWF
  infer_instance

def entryTuple (e : IndexEntry) : Bytes × Bytes × Nat × Nat × Nat :=
  (e.pathName, e.hash, e.mode, e.size, e.flags)

def cPad (k : Nat) : IndexEntry :=
  { cTimeSeconds := k, cTimeNanoseconds := 0, mTimeSeconds := 0, mTimeNanoseconds := 0,
    dev := 0, ino := 0, mode := 33188, uid := 0, gid := 0, size := k,
    hash := List.replicate 20 k, pathName := List.replicate k 97, flags := k }

def cRoundtripIndex : Index :=
  { version := 2,
    entries := [cPad 9, cPad 8, cPad 7, cPad 6, cPad 5, cPad 4, cPad 3, cPad 2] }

def cBadEntry : IndexEntry :=
  { cTimeSeconds := 0, cTimeNanoseconds := 0, mTimeSeconds := 0, mTimeNanoseconds := 0,
    dev := 0, ino := 0, mode := 33188, uid := 0, gid := 0, size := 0,
    hash := List.replicate 20 0, pathName := [97], flags := 0 }

def cBadIndex : Index := { version := 2, entries := [cBadEntry] }

def cLongEntry : IndexEntry :=
  { cTimeSeconds := 0, cTimeNanoseconds := 0, mTimeSeconds := 0, mTimeNanoseconds := 0,
    dev := 0, ino := 0, mode := 33188, uid := 0, gid := 0, size := 0,
    hash := List.replicate 20 0, pathName := List.replicate 4096 97, flags := 4095 }

def cLongIndex : Index := { version := 2, entries := [cLongEntry] }

def cEmptyIndexFile : Bytes :=
  [68, 73, 82, 67, 0, 0, 0, 2, 0, 0, 0, 0,
   57, 216, 144, 19, 158, 229, 53, 108, 126, 245, 114, 33, 108, 235, 205, 39, 170, 65, 249, 223]

inductive ObjType where
| blob
| tree
| commit

deriving DecidableEq, Repr

def objTypeName : ObjType → Bytes
| .blob => [98, 108, 111, 98]
| .tree => [116, 114, 101, 101]
| .commit => [99, 111, 109, 109, 105, 116]

def decDigits : Nat → Nat → Bytes
| 0, _ => []
| fuel+1, n => if n < 10 then [48 + n] else decDigits fuel (n / 10) ++ [48 + n % 10]

/-- Decimal ASCII rendering of a natural number (Go fmt %d). -/
def decAscii (n : Nat) : Bytes := decDigits (n+1) n

structure Object where
  objType : ObjType
  size : Nat
  data : Bytes
  hash : Bytes

deriving DecidableEq, Repr

/-- Modelled from the spec: Object.Header of the missing object package is
    the canonical framing "kind-name SPACE payload-length NUL". -/
def Object.Header (o : Object) : Bytes :=
  objTypeName o.objType ++ [32] ++ decAscii o.size ++ [0]

def hexDigit (n : Nat) : Nat := if n < 10 then 48 + n else 87 + n

/-- Lowercase hex rendering of a byte string (sha.SHA1.String). -/
def hexOfBytes (h : Bytes) : Bytes :=
  (h.map (fun b => [hexDigit (b / 16), hexDigit (b % 16)])).flatten

/-- Storage path (objects/<first-2-hex>/<remaining-38-hex>) derived by the
    store client from the hash hex string. -/
def objectPath (hash : Bytes) : Bytes × Bytes :=
  ((hexOfBytes hash).take 2, (hexOfBytes hash).drop 2)

/-- Opaque model of zlib compression: an injective tagging of the input
    bytes (the deflate codec is invertible, and no claim inspects the
    compressed stream itself). -/
structure ZBytes where
  raw : Bytes

deriving DecidableEq, Repr

def zlibCompress (b : Bytes) : ZBytes := ⟨b⟩

/-- The object directory on disk: association list from path to file. -/
abbrev ObjDisk := List ((Bytes × Bytes) × ZBytes)

def diskLookup (d : ObjDisk) (p : Bytes × Bytes) : Option ZBytes :=
  match d with
  | [] => none
  | (q, c) :: rest => if q = p then some c else diskLookup rest p

inductive StoreErr where
| invalidHash (hashStr : Bytes)

deriving DecidableEq, Repr

/-- Client.WriteObject: derive the path from the hex hash string (rejected
    unless 40 chars); if a file already exists there, return success without
    rewriting; otherwise compress header+data and place the file (the
    temp-file-then-rename sequence ends with exactly this file present). -/
def WriteObject (disk : ObjDisk) (obj : Object) : Except StoreErr ObjDisk :=
  if (hexOfBytes obj.hash).length ≠ 40 then .error (.invalidHash (hexOfBytes obj.hash))
  else
    match diskLookup disk (objectPath obj.hash) with
    | some _ => .ok disk
    | none => .ok (disk ++ [(objectPath obj.hash, zlibCompress (obj.Header ++ obj.data))])

def cBlobObject : Object :=
  { objType := .blob, size := 5, data := [104, 101, 108, 108, 111],
    hash := List.replicate 20 0 }

def hasPref : Bytes → Bytes → Bool
| _, [] => true
| [], _ :: _ => false
| c :: cs, p :: ps => c == p && hasPref cs ps

/-- strings.TrimPrefix: drop the prefix when present, else unchanged. -/
def trimPref (s pre : Bytes) : Bytes := if hasPref s pre then s.drop pre.length else s

/-- First component of strings.SplitN(s, "/", 2). -/
def firstComp (s : Bytes) : Bytes := s.takeWhile (fun c => c != 47)

/-- filepath.Base for clean slash-separated relative paths. -/
def goBase (s : Bytes) : Bytes :=
  if s.isEmpty then [46] else (s.reverse.takeWhile (fun c => c != 47)).reverse

/-- filepath.Dir for clean slash-separated relative paths: the part before
    the last slash, or "." when there is none. -/
def goDir (s : Bytes) : Bytes :=
  let b := s.reverse.takeWhile (fun c => c != 47)
  if b.length = s.length then [46] else s.take (s.length - b.length - 1)

/-- filepath.Join for clean components. -/
def goJoin (a b : Bytes) : Bytes := if a.isEmpty then b else a ++ [47] ++ b

/-- Octal digits of a natural number, most significant first. -/
def octDigits : Nat → Nat → Bytes
| 0, _ => []
| fuel+1, n => if n < 8 then [48 + n] else octDigits fuel (n / 8) ++ [48 + n % 8]

/-- fmt %06o: octal, zero-padded to at least six digits. -/
def octal6 (n : Nat) : Bytes :=
  let d := octDigits (n+1) n
  List.replicate (6 - d.length) 48 ++ d

/-- The fixed directory mode string "040000" used for subdirectory entries. -/
def dirMode : Bytes := [48, 52, 48, 48, 48, 48]

structure TreeEntry where
  mode : Bytes
  name : Bytes
  hash : Bytes

deriving DecidableEq, Repr

/-- Order on tree entries used for serialization: byte-wise on names. -/
def nameLe (a b : TreeEntry) : Prop := bytesLe a.name b.name = true

instance : DecidableRel nameLe := fun a b => by
  unfold nameLe
  infer_instance

def sortTreeEntries (es : List TreeEntry) : List TreeEntry := List.insertionSort nameLe es

/-- Modelled from the spec: the tree payload of the missing object package
    serializes the entries sorted by name ascending (byte-wise), each as
    "mode SPACE name NUL" followed by the raw 20-byte hash. -/
def treePayload (es : List TreeEntry) : Bytes :=
  ((sortTreeEntries es).map (fun e => e.mode ++ [32] ++ e.name ++ [0] ++ e.hash)).flatten

/-- Modelled from the spec: object.NewTree builds the tree Object with the
    canonical header framing and its SHA-1 hash over header plus payload. -/
def NewTree (es : List TreeEntry) : Object :=
  let payload := treePayload es
  let pre : Object := { objType := .tree, size := payload.length, data := payload, hash := [] }
  { pre with hash := sha1 (pre.Header ++ payload) }

/-- Association list modelling a Go map from path to index entry. -/
abbrev EntryMap := List (Bytes × IndexEntry)

def mapLookup (m : EntryMap) (k : Bytes) : Option IndexEntry :=
  match m with
  | [] => none
  | (q, e) :: rest => if q = k then some e else mapLookup rest k

/-- String order relation for sort.Strings. -/
def strLe (a b : Bytes) : Prop := bytesLe a b = true

instance : DecidableRel strLe := fun a b => by
  unfold strLe
  infer_instance

def sortStrs (l : List Bytes) : List Bytes := List.insertionSort strLe l

/-- Work items of buildTreeObjectsRecursive: a directory level, or the
    loop over its sorted immediate subdirectory names. -/
inductive BTask where
| level (direct : EntryMap) (allSub : EntryMap) (pre : Bytes)
| subdirs (allSub : EntryMap) (names : List Bytes) (pre : Bytes)

deriving Repr

/-- Result of a work item: the updated object directory plus either the
    tree hash of a level or the collected subdirectory tree entries. -/
inductive BRes where
| hashRes (disk : ObjDisk) (h : Bytes)
| entriesRes (disk : ObjDisk) (es : List TreeEntry)

deriving DecidableEq, Repr

/-- cmd/commit.go buildTreeObjectsRecursive, defunctionalized over a fuel
    bound: a level emits the file entries of the current directory, finds the
    immediate subdirectory names via the prefix test, recurses over them in
    sorted order, and writes the resulting tree through the object store.
    A failing WriteObject or exhausted fuel yields none. -/
def buildGo : Nat → BTask → ObjDisk → Option BRes
| 0, _, _ => none
| fuel+1, .level direct allSub pre, disk =>
  let sortedDirectEntryNames := sortStrs (direct.map Prod.fst).dedup
  let fileEntries := sortedDirectEntryNames.filterMap (fun name =>
    (mapLookup direct name).map (fun entry =>
      ({ mode := octal6 entry.mode, name := goBase entry.pathName,
         hash := entry.hash } : TreeEntry)))
  let subNames := ((allSub.map Prod.fst).filterMap (fun fullPath =>
    if hasPref fullPath pre && pre.length < fullPath.length then
      let relPath := trimPref (trimPref fullPath pre) [47]
      let fc := firstComp relPath
      if fc != [] && !(fc.contains 47) then some fc else none
    else none)).dedup
  match buildGo fuel (.subdirs allSub (sortStrs subNames) pre) disk with
  | some (.entriesRes disk1 dirEntries) =>
    let obj := NewTree (fileEntries ++ dirEntries)
    match WriteObject disk1 obj with
    | .ok disk2 => some (.hashRes disk2 obj.hash)
    | .error _ => none
  | _ => none
| _+1, .subdirs _ [] _, disk => some (.entriesRes disk [])
| fuel+1, .subdirs allSub (n :: ns) pre, disk =>
  let nextPre := goJoin pre n
  let recNext := allSub.filter (fun x => hasPref x.1 (nextPre ++ [47]))
  let dirNext := allSub.filter (fun x =>
    !(hasPref x.1 (nextPre ++ [47])) && (goDir x.1 == nextPre))
  match buildGo fuel (.level dirNext recNext nextPre) disk with
  | some (.hashRes disk1 subHash) =>
    match buildGo fuel (.subdirs allSub ns pre) disk1 with
    | some (.entriesRes disk2 rest) =>
      some (.entriesRes disk2 (⟨dirMode, n, subHash⟩ :: rest))
    | _ => none
  | _ => none

/-- Entry point corresponding to the Go function's signature. -/
def buildTreeObjectsRecursive (fuel : Nat) (direct allSub : EntryMap) (disk : ObjDisk)
    (pre : Bytes) : Option (ObjDisk × Bytes) :=
  match buildGo fuel (.level direct allSub pre) disk with
  | some (.hashRes d h) => some (d, h)
  | _ => none

def bresDisk : BRes → ObjDisk
| .hashRes d _ => d
| .entriesRes d _ => d

/-- The on-disk file written for an object by WriteObject. -/
def objFile (o : Object) : (Bytes × Bytes) × ZBytes :=
  (objectPath o.hash, zlibCompress (o.Header ++ o.data))

def cZEntry : IndexEntry :=
  { cTimeSeconds := 0, cTimeNanoseconds := 0, mTimeSeconds := 0, mTimeNanoseconds := 0,
    dev := 0, ino := 0, mode := 33188, uid := 0, gid := 0, size := 3,
    hash := List.replicate 20 2, pathName := [122, 46, 116, 120, 116], flags := 5 }

def cABEntry : IndexEntry :=
  { cZEntry with pathName := [97, 47, 98, 46, 116, 120, 116], hash := List.replicate 20 3 }

def cT0 : Object := NewTree []

def cTA : Object := NewTree [⟨dirMode, [98, 46, 116, 120, 116], cT0.hash⟩]

def cZTreeEntry : TreeEntry := ⟨octal6 33188, [122, 46, 116, 120, 116], List.replicate 20 2⟩

def cADirEntry : TreeEntry := ⟨dirMode, [97], cTA.hash⟩

def cRootTree : Object := NewTree [cZTreeEntry, cADirEntry]

def cNestedEntry : IndexEntry :=
  { cTimeSeconds := 0, cTimeNanoseconds := 0, mTimeSeconds := 0, mTimeNanoseconds := 0,
    dev := 0, ino := 0, mode := 33188, uid := 0, gid := 0, size := 3,
    hash := List.replicate 20 1,
    pathName := [100, 105, 114, 47, 115, 117, 98, 47, 102, 105, 108, 101, 46, 116, 120, 116],
    flags := 16 }

def cN0 : Object := NewTree []

def cNFileTree : Object := NewTree [⟨dirMode, [102, 105, 108, 101, 46, 116, 120, 116], cN0.hash⟩]

def cNSubTree : Object := NewTree [⟨dirMode, [115, 117, 98], cNFileTree.hash⟩]

def cNRootTree : Object := NewTree [⟨dirMode, [100, 105, 114], cNSubTree.hash⟩]

/-- Modelled from the spec: a parsed Commit of the missing object package
    (tree hash, parent hashes, free-form message). -/
structure Commit where
  tree : Bytes
  parents : List Bytes
  message : Bytes

deriving DecidableEq, Repr

/-- Modelled from the spec: the object store as seen through
    GetObject + NewCommit, a finite map from hash to parsed commit; a
    missing hash is the NotFound error GetObject reports. -/
abbrev CommitRepo := List (Bytes × Commit)

def repoLookup (r : CommitRepo) (h : Bytes) : Option Commit :=
  match r with
  | [] => none
  | (k, c) :: rest => if k = h then some c else repoLookup rest h

/-- Callback outcome: continue (nil error), the distinguished ErrStopWalk
    sentinel (modelled from the spec), or any other error. -/
inductive WalkRes where
| next
| stop
| fail

deriving DecidableEq, Repr

inductive WalkErr where
| getObjectFailed (h : Bytes)
| walkFuncFailed

deriving DecidableEq, Repr

/-- Client.WalkHistory: breadth-first walk over parent links with a
    visited set, fetching each commit through the store, invoking the
    callback (threaded state models the Go closure), treating ErrStopWalk
    as success and enqueueing only unvisited parents.  Fuel bounds the
    loop; the final visited list is returned for observation. -/
def WalkHistory {σ : Type} : Nat → CommitRepo → List Bytes → List Bytes → σ →
    (σ → Commit → σ × WalkRes) → Option (σ × List Bytes × Except WalkErr Unit)
| 0, _, _, _, _, _ => none
| _+1, _, [], visited, s, _ => some (s, visited, .ok ())
| fuel+1, repo, h :: rest, visited, s, f =>
  if h ∈ visited then WalkHistory fuel repo rest visited s f
  else
    match repoLookup repo h with
    | none => some (s, h :: visited, .error (.getObjectFailed h))
    | some c =>
      match (f s c).2 with
      | .fail => some ((f s c).1, h :: visited, .error .walkFuncFailed)
      | .stop => some ((f s c).1, h :: visited, .ok ())
      | .next =>
        WalkHistory fuel repo (rest ++ c.parents.filter (fun p => !((h :: visited).contains p)))
          (h :: visited) (f s c).1 f

def cH1 : Bytes := [1]

def cH2 : Bytes := [2]

def cH3 : Bytes := [3]

def cCommit (n : Nat) (ps : List Bytes) : Commit := ⟨List.replicate 20 n, ps, [109]⟩

def cChainRepo : CommitRepo :=
  [(cH3, cCommit 3 [cH2]), (cH2, cCommit 2 [cH1]), (cH1, cCommit 1 [])]

/-- A callback that stops on every commit. -/
def stopf : Unit → Commit → Unit × WalkRes := fun _ _ => ((), .stop)

/-- Fuel budget: total enqueue-capacity of the not-yet-visited commits. -/
def walkBudget : CommitRepo → List Bytes → Nat
| [], _ => 0
| x :: rest, visited =>
  (if x.1 ∈ visited then 0 else 1 + x.2.parents.length) + walkBudget rest visited

/-- The observation callback used to state C4: record every commit the
    walker hands to the callback, in invocation order. -/
def logf : List Commit → Commit → List Commit × WalkRes := fun s c => (s ++ [c], .next)

def defaultCommit : Commit := ⟨[], [], []⟩

/-- Every parent referenced by a stored commit is itself stored. -/
def repoClosed (repo : CommitRepo) : Prop :=
  ∀ h c, repoLookup repo h = some c → ∀ p ∈ c.parents, ∃ c2, repoLookup repo p = some c2

/-- Reachability along parent links from a start hash. -/
inductive Reach (repo : CommitRepo) (start : Bytes) : Bytes → Prop
| refl : Reach repo start start
| step {h c p} : Reach repo start h → repoLookup repo h = some c → p ∈ c.parents →
    Reach repo start p

def cDupRepo : CommitRepo :=
  [(cH3, cCommit 3 [cH2, cH1]), (cH2, cCommit 2 [cH1]), (cH1, cCommit 1 [])]

def cCycleRepo : CommitRepo :=
  [(cH1, cCommit 1 [cH2]), (cH2, cCommit 2 [cH1])]

/-- ASCII bytes of a string literal. -/
def strBytes (s : String) : Bytes := s.data.map Char.toNat

/-- Whitespace bytes recognized by strings.TrimSpace (ASCII range). -/
def isSpaceByte (b : Nat) : Bool := b == 32 || (9 ≤ b && b ≤ 13)

def trimSpace (s : Bytes) : Bytes :=
  ((s.dropWhile isSpaceByte).reverse.dropWhile isSpaceByte).reverse

def hexVal (c : Nat) : Option Nat :=
  if 48 ≤ c ∧ c ≤ 57 then some (c - 48)
  else if 97 ≤ c ∧ c ≤ 102 then some (c - 87)
  else if 65 ≤ c ∧ c ≤ 70 then some (c - 55)
  else none

def hexDecode : Bytes → Option Bytes
| [] => some []
| [_] => none
| a :: b :: rest =>
  match hexVal a, hexVal b, hexDecode rest with
  | some x, some y, some r => some ((16 * x + y) :: r)
  | _, _, _ => none

/-- Modelled from the spec: sha.FromString of the missing sha package
    parses a raw 40-hex-character hash into 20 bytes, rejecting anything
    else. -/
def shaFromString (s : Bytes) : Option Bytes :=
  if s.length = 40 then hexDecode s else none

/-- Go fmt "%02d"-style two digits for 0 <= n < 100. -/
def pad2 (n : Nat) : Bytes := if n < 10 then [48, 48 + n] else decAscii n

/-- Go fmt "%+03d" for hour offsets. -/
def fmtPlus03 (h : Int) : Bytes :=
  if h ≥ 0 then [43] ++ pad2 h.toNat else [45] ++ pad2 (-h).toNat

/-- Go fmt "%02d" applied to a possibly negative minute count. -/
def fmt02 (m : Int) : Bytes :=
  if m ≥ 0 then pad2 m.toNat else [45] ++ decAscii (-m).toNat

/-- The "+HHMM"/"-HHMM" zone offset string of commitCmd.Run (Go integer
    division truncates toward zero). -/
def offsetStr (offsetSeconds : Int) : Bytes :=
  fmtPlus03 (offsetSeconds.tdiv 3600) ++ fmt02 ((offsetSeconds.tmod 3600).tdiv 60)

/-- The .git directory state seen by commitCmd.Run: the index file, HEAD,
    the ref files and the object store. -/
structure GitRepo where
  indexFile : Option Bytes
  headFile : Option Bytes
  refs : List (Bytes × Bytes)
  objects : ObjDisk

deriving DecidableEq, Repr

def refLookup : List (Bytes × Bytes) → Bytes → Option Bytes
| [], _ => none
| (k, v) :: rest, name => if k = name then some v else refLookup rest name

def refWrite : List (Bytes × Bytes) → Bytes → Bytes → List (Bytes × Bytes)
| [], name, v => [(name, v)]
| (k, w) :: rest, name, v =>
  if k = name then (k, v) :: rest else (k, w) :: refWrite rest name v

/-- Outcome of commitCmd.Run: a successful commit with the new repository
    state and commit hash, the "nothing to commit" early return, or any
    log.Fatalf exit. -/
inductive CommitOutcome where
| committed (repo : GitRepo) (hash : Bytes)
| nothingToCommit
| fatal

deriving DecidableEq, Repr

/-- The textual commit payload of commitCmd.Run (tree, optional parent,
    hard-coded author/committer with the supplied clock, blank line,
    message). -/
def commitPayload (rootTreeHash : Bytes) (parent : Option Bytes) (msg : Bytes)
    (authorUnix : Nat) (offsetSeconds : Int) : Bytes :=
  strBytes "tree " ++ hexOfBytes rootTreeHash ++ [10]
    ++ (match parent with
        | some p => strBytes "parent " ++ hexOfBytes p ++ [10]
        | none => [])
    ++ (strBytes "author Test User <test@example.com> " ++ decAscii authorUnix
        ++ [32] ++ offsetStr offsetSeconds ++ [10])
    ++ (strBytes "committer Test User <test@example.com> " ++ decAscii authorUnix
        ++ [32] ++ offsetStr offsetSeconds ++ [10])
    ++ [10] ++ msg ++ [10]

/-- The commit Object with its hash over header plus payload. -/
def commitObjectOf (rootTreeHash : Bytes) (parent : Option Bytes) (msg : Bytes)
    (authorUnix : Nat) (offsetSeconds : Int) : Object :=
  let commitData := commitPayload rootTreeHash parent msg authorUnix offsetSeconds
  let preObj : Object :=
    { objType := .commit, size := commitData.length, data := commitData, hash := [] }
  { preObj with hash := sha1 (preObj.Header ++ commitData) }

/-- Steps 3-6 of commitCmd.Run: build the commit payload, hash and store
    the commit object, then update the branch ref (or HEAD when detached). -/
def commitFinish (repo : GitRepo) (objects1 : ObjDisk) (rootTreeHash : Bytes)
    (parent : Option Bytes) (branchRef : Option Bytes) (msg : Bytes)
    (authorUnix : Nat) (offsetSeconds : Int) : CommitOutcome :=
  match WriteObject objects1 (commitObjectOf rootTreeHash parent msg authorUnix offsetSeconds) with
  | .error _ => .fatal
  | .ok objects2 =>
    let refContents :=
      hexOfBytes (commitObjectOf rootTreeHash parent msg authorUnix offsetSeconds).hash ++ [10]
    match branchRef with
    | some refName =>
      .committed { repo with objects := objects2, refs := refWrite repo.refs refName refContents }
        (commitObjectOf rootTreeHash parent msg authorUnix offsetSeconds).hash
    | none =>
      .committed { repo with objects := objects2, headFile := some refContents }
        (commitObjectOf rootTreeHash parent msg authorUnix offsetSeconds).hash

/-- The rootDirEntries map of commitCmd.Run: entries whose path has no
    slash, keyed by path. -/
def rootLevelMap (entries : List IndexEntry) : EntryMap :=
  (entries.filter (fun e => !(e.pathName.contains 47))).map (fun e => (e.pathName, e))

/-- The allSubDirIndexEntries map of commitCmd.Run: entries whose path
    contains a slash, keyed by full path. -/
def subLevelMap (entries : List IndexEntry) : EntryMap :=
  (entries.filter (fun e => e.pathName.contains 47)).map (fun e => (e.pathName, e))

/-- cmd/commit.go commitCmd.Run: read the index (empty index is a plain
    return, not a commit), partition entries into the root level and the
    subdirectory set, build the trees, resolve the parent from HEAD
    (symbolic ref with a missing ref file means a first commit; otherwise
    the ref or detached HEAD content must parse as a 40-hex hash), write
    the commit object and update the ref.  The index file is whatever the
    final state carries; authorUnix/offsetSeconds stand for time.Now(). -/
def commitRun (fuel : Nat) (msg : Bytes) (authorUnix : Nat) (offsetSeconds : Int)
    (repo : GitRepo) : CommitOutcome :=
  if msg = [] then .fatal
  else
    match ReadIndex repo.indexFile with
    | .error _ => .fatal
    | .ok idx =>
      if idx.entries.length = 0 then .nothingToCommit
      else
        match buildTreeObjectsRecursive fuel (rootLevelMap idx.entries)
            (subLevelMap idx.entries) repo.objects [] with
        | none => .fatal
        | some (objects1, rootTreeHash) =>
          match repo.headFile with
          | none => .fatal
          | some headContent =>
            if hasPref headContent (strBytes "ref: ") then
              match refLookup repo.refs (trimSpace (headContent.drop 5)) with
              | none =>
                commitFinish repo objects1 rootTreeHash none
                  (some (trimSpace (headContent.drop 5))) msg authorUnix offsetSeconds
              | some refBytes =>
                match shaFromString (trimSpace refBytes) with
                | none => .fatal
                | some parent =>
                  commitFinish repo objects1 rootTreeHash (some parent)
                    (some (trimSpace (headContent.drop 5))) msg authorUnix offsetSeconds
            else
              match shaFromString (trimSpace headContent) with
              | none => .fatal
              | some parent =>
                commitFinish repo objects1 rootTreeHash (some parent) none msg
                  authorUnix offsetSeconds

def cC1Entry : IndexEntry :=
  { cTimeSeconds := 0, cTimeNanoseconds := 0, mTimeSeconds := 0, mTimeNanoseconds := 0,
    dev := 0, ino := 0, mode := 33188, uid := 0, gid := 0, size := 5,
    hash := List.replicate 20 7, pathName := [97, 46, 116, 120, 116], flags := 5 }

def cC1Index : Index := { version := 2, entries := [cC1Entry] }

def cC1Repo : GitRepo :=
  { indexFile := (WriteIndex cC1Index).toOption,
    headFile := some (strBytes "ref: refs/heads/master\n"),
    refs := [], objects := [] }

def cC1Repo2 : GitRepo :=
  match commitRun 4 [109] 0 0 cC1Repo with
  | .committed r _ => r
  | _ => cC1Repo

def cC1Hash : Bytes :=
  match commitRun 4 [109] 0 0 cC1Repo with
  | .committed _ h => h
  | _ => []

theorem beU32_u32be (n : Nat) (h : n < u32mod) : beU32 (u32be n) = n := by
  simp only [u32be, wordBytes, beU32, beWord, u32mod] at *
  omega

theorem beU16_u16be (n : Nat) (h : n < 65536) : beU16 (u16be n) = n := by
  simp only [u16be, beU16] at *
  omega

theorem u32be_length (n : Nat) : (u32be n).length = 4 := rfl

theorem u16be_length (n : Nat) : (u16be n).length = 2 := rfl

theorem sha1_length (m : Bytes) : (sha1 m).length = 20 := by
  simp [sha1, wordBytes]

theorem bytesLe_refl (x : Bytes) : bytesLe x x = true := by
  induction x with
  | nil => rfl
  | cons a as ih => simp [bytesLe, ih]

theorem bytesLe_total (x y : Bytes) : bytesLe x y = true ∨ bytesLe y x = true := by
  induction x generalizing y with
  | nil => left; rfl
  | cons a as ih =>
    cases y with
    | nil => right; rfl
    | cons b bs =>
      by_cases hab : a < b
      · left; simp [bytesLe, hab]
      · by_cases hba : b < a
        · right; simp [bytesLe, hba, hab]
        · have : ¬ a < b := hab
          rcases ih bs with h | h
          · left; simp [bytesLe, hab, hba, h]
          · right; simp [bytesLe, hab, hba, h]

theorem bytesLe_trans {x y z : Bytes} (h1 : bytesLe x y = true) (h2 : bytesLe y z = true) :
    bytesLe x z = true := by
  induction x generalizing y z with
  | nil => rfl
  | cons a as ih =>
    cases y with
    | nil => simp [bytesLe] at h1
    | cons b bs =>
      cases z with
      | nil => simp [bytesLe] at h2
      | cons c cs =>
        simp only [bytesLe] at h1 h2 ⊢
        by_cases hab : a < b
        · by_cases hbc : b < c
          · simp [Nat.lt_trans hab hbc]
          · by_cases hcb : c < b
            · simp [hbc, hcb] at h2
            · have hbc2 : b = c := Nat.le_antisymm (Nat.le_of_not_lt hcb) (Nat.le_of_not_lt hbc)
              subst hbc2
              simp [hab]
        · by_cases hba : b < a
          · simp [hab, hba] at h1
          · have hab2 : a = b := Nat.le_antisymm (Nat.le_of_not_lt hba) (Nat.le_of_not_lt hab)
            subst hab2
            simp only [Nat.lt_irrefl, if_false] at h1
            by_cases hac : a < c
            · simp [hac]
            · by_cases hca : c < a
              · simp [hac, hca] at h2
              · have hac2 : a = c := Nat.le_antisymm (Nat.le_of_not_lt hca) (Nat.le_of_not_lt hac)
                subst hac2
                simp only [Nat.lt_irrefl, if_false] at h1 h2 ⊢
                exact ih h1 h2

instance : IsTotal IndexEntry entryLe := ⟨fun a b => bytesLe_total a.pathName b.pathName⟩

instance : IsTrans IndexEntry entryLe := ⟨fun _ _ _ => bytesLe_trans⟩

theorem serializeEntry_drop40 (e : IndexEntry) (rest : Bytes) :
    (serializeEntry e ++ rest).drop 40 =
      e.hash ++ (u16be e.flags ++ (e.pathName ++
        (List.replicate (entryPadding e.pathName.length) 0 ++ rest))) := by
  simp [serializeEntry, u32be, wordBytes, List.append_assoc]

theorem serializeEntry_length (e : IndexEntry) (h : e.hash.length = 20) :
    (serializeEntry e).length = 62 + e.pathName.length + entryPadding e.pathName.length := by
  simp [serializeEntry, u32be, u16be, wordBytes, h]
  omega

theorem parseEntry_serializeEntry (e : IndexEntry) (rest : Bytes) (i : Nat) (hw : entryWF e) :
    parseEntry (serializeEntry e ++ rest) i = .ok (e, rest) := by
  obtain ⟨h1, h2, h3, h4, h5, h6, h7, h8, h9, h10, hf, hh, hfl⟩ := hw
  have hlen : (serializeEntry e ++ rest).length
      = 62 + e.pathName.length + entryPadding e.pathName.length + rest.length := by
    rw [List.length_append, serializeEntry_length e hh]
  have hd40 := serializeEntry_drop40 e rest
  have hd60 : (serializeEntry e ++ rest).drop 60
      = u16be e.flags ++ (e.pathName ++
          (List.replicate (entryPadding e.pathName.length) 0 ++ rest)) := by
    have : (serializeEntry e ++ rest).drop 60 = ((serializeEntry e ++ rest).drop 40).drop 20 := by
      rw [List.drop_drop]
    rw [this, hd40, List.drop_left' hh]
  have hd62 : (serializeEntry e ++ rest).drop 62
      = e.pathName ++ (List.replicate (entryPadding e.pathName.length) 0 ++ rest) := by
    have : (serializeEntry e ++ rest).drop 62 = ((serializeEntry e ++ rest).drop 60).drop 2 := by
      rw [List.drop_drop]
    rw [this, hd60, List.drop_left' (u16be_length e.flags)]
  have hflags : beU16 (((serializeEntry e ++ rest).drop 60).take 2) = e.flags := by
    rw [hd60, List.take_left' (u16be_length e.flags)]
    exact beU16_u16be _ hf
  have hhash : ((serializeEntry e ++ rest).drop 40).take 20 = e.hash := by
    rw [hd40, List.take_left' hh]
  unfold u32mod at h1 h2 h3 h4 h5 h6 h7 h8 h9 h10
  have f0 : beU32 (((serializeEntry e ++ rest).drop (4*0)).take 4) = e.cTimeSeconds := by
    simp [serializeEntry, u32be, wordBytes, beU32, beWord]
    omega
  have f1 : beU32 (((serializeEntry e ++ rest).drop (4*1)).take 4) = e.cTimeNanoseconds := by
    simp [serializeEntry, u32be, wordBytes, beU32, beWord]
    omega
  have f2 : beU32 (((serializeEntry e ++ rest).drop (4*2)).take 4) = e.mTimeSeconds := by
    simp [serializeEntry, u32be, wordBytes, beU32, beWord]
    omega
  have f3 : beU32 (((serializeEntry e ++ rest).drop (4*3)).take 4) = e.mTimeNanoseconds := by
    simp [serializeEntry, u32be, wordBytes, beU32, beWord]
    omega
  have f4 : beU32 (((serializeEntry e ++ rest).drop (4*4)).take 4) = e.dev := by
    simp [serializeEntry, u32be, wordBytes, beU32, beWord]
    omega
  have f5 : beU32 (((serializeEntry e ++ rest).drop (4*5)).take 4) = e.ino := by
    simp [serializeEntry, u32be, wordBytes, beU32, beWord]
    omega
  have f6 : beU32 (((serializeEntry e ++ rest).drop (4*6)).take 4) = e.mode := by
    simp [serializeEntry, u32be, wordBytes, beU32, beWord]
    omega
  have f7 : beU32 (((serializeEntry e ++ rest).drop (4*7)).take 4) = e.uid := by
    simp [serializeEntry, u32be, wordBytes, beU32, beWord]
    omega
  have f8 : beU32 (((serializeEntry e ++ rest).drop (4*8)).take 4) = e.gid := by
    simp [serializeEntry, u32be, wordBytes, beU32, beWord]
    omega
  have f9 : beU32 (((serializeEntry e ++ rest).drop (4*9)).take 4) = e.size := by
    simp [serializeEntry, u32be, wordBytes, beU32, beWord]
    omega
  unfold parseEntry
  rw [if_neg (by omega), if_neg (by omega)]
  simp only [f0, f1, f2, f3, f4, f5, f6, f7, f8, f9, hflags, hhash, hfl, hd62]
  rw [if_neg (by simp [List.length_append])]
  simp only [List.take_left' rfl, List.drop_left' rfl]
  rw [if_neg (by simp [List.length_append, List.length_replicate])]
  simp only [List.drop_left' (List.length_replicate _ _)]

theorem entryWF_flagsLen {e : IndexEntry} (h : entryWF e) :
    Nat.land e.flags maxPathLength = e.pathName.length :=
  h.2.2.2.2.2.2.2.2.2.2.2.2

theorem entryWF_pathShort {e : IndexEntry} (h : entryWF e) :
    e.pathName.length ≤ maxPathLength := by
  rw [← entryWF_flagsLen h]
  exact Nat.and_le_right

/-- Under the length bound, the entry loop of WriteIndex succeeds and
    produces the concatenation of the per-entry serializations. -/
theorem serializeEntries_ok (es : List IndexEntry)
    (h : ∀ e ∈ es, e.pathName.length ≤ maxPathLength) :
    serializeEntries es = .ok (es.map serializeEntry).flatten := by
  induction es with
  | nil => rfl
  | cons e es ih =>
    have he : e.pathName.length ≤ maxPathLength := h e (by simp)
    rw [serializeEntries, if_neg (by omega), ih (fun x hx => h x (by simp [hx]))]
    simp

theorem parseEntryList_ok (es : List IndexEntry) (hwf : ∀ e ∈ es, entryWF e) (i : Nat) :
    parseEntryList es.length ((es.map serializeEntry)).flatten i = .ok es := by
  induction es generalizing i with
  | nil => rfl
  | cons e es ih =>
    simp only [List.map_cons, List.flatten_cons, List.length_cons]
    rw [parseEntryList, parseEntry_serializeEntry e _ i (hwf e (by simp))]
    simp [ih (fun x hx => hwf x (by simp [hx]))]

/-- Round-trip: writing a well-formed index and reading the produced file
    recovers exactly the sorted entry list. -/
theorem readIndexData_WriteIndex (idx : Index) (hwf : indexWF idx) :
    ∃ file, WriteIndex idx = .ok file ∧
      readIndexData file = .ok { version := 2, entries := sortEntries idx.entries } := by
  obtain ⟨hv, hn, he⟩ := hwf
  have hes : ∀ e ∈ sortEntries idx.entries, entryWF e := by
    intro e hmem
    exact he e ((List.perm_insertionSort entryLe idx.entries).mem_iff.mp hmem)
  have hlen : (sortEntries idx.entries).length = idx.entries.length :=
    (List.perm_insertionSort entryLe idx.entries).length_eq
  have hser := serializeEntries_ok (sortEntries idx.entries)
    (fun e hme => entryWF_pathShort (hes e hme))
  set body := ((sortEntries idx.entries).map serializeEntry).flatten with hbody
  set content := indexSignature ++ u32be 2 ++
      u32be ((sortEntries idx.entries).length % u32mod) ++ body with hcontent
  have hw : WriteIndex idx = .ok (content ++ sha1 content) := by
    rw [WriteIndex]
    rw [hser]
    simp only [hcontent, hv]
  refine ⟨content ++ sha1 content, hw, ?_⟩
  have hclen : content.length = 12 + body.length := by
    simp [hcontent, indexSignature, u32be, wordBytes]
    omega
  have hdlen : (content ++ sha1 content).length = content.length + 20 := by
    simp [sha1_length]
  unfold readIndexData
  rw [if_neg (show ¬((content ++ sha1 content).length < 12) by omega)]
  rw [if_pos (show (content ++ sha1 content).length ≥ 32 by omega)]
  have ht : (content ++ sha1 content).take ((content ++ sha1 content).length - 20) = content :=
    List.take_left' (by omega)
  have hd : (content ++ sha1 content).drop ((content ++ sha1 content).length - 20) = sha1 content :=
    List.drop_left' (by omega)
  simp only [ht, hd, ne_eq, not_true_eq_false, if_neg, ite_false, not_false_iff]
  -- core parsing
  have hsig : content.take 4 = indexSignature := by
    rw [hcontent]
    exact List.take_left' (show indexSignature.length = 4 from rfl)
  have hrest4 : content.drop 4 = u32be 2 ++ (u32be ((sortEntries idx.entries).length % u32mod) ++ body) := by
    rw [hcontent]
    simp only [List.append_assoc]
    exact List.drop_left' (show indexSignature.length = 4 from rfl)
  have hver : beU32 ((content.drop 4).take 4) = 2 := by
    rw [hrest4, List.take_left' (u32be_length 2)]
    exact beU32_u32be 2 (by norm_num [u32mod])
  have hrest8 : content.drop 8 = u32be ((sortEntries idx.entries).length % u32mod) ++ body := by
    have h8 : content.drop 8 = (content.drop 4).drop 4 := by rw [List.drop_drop]
    rw [h8, hrest4, List.drop_left' (u32be_length 2)]
  have hnum : beU32 ((content.drop 8).take 4) = (sortEntries idx.entries).length := by
    rw [hrest8, List.take_left' (u32be_length _), beU32_u32be _ (Nat.mod_lt _ (by norm_num [u32mod]))]
    rw [hlen]
    exact Nat.mod_eq_of_lt hn
  have hrest12 : content.drop 12 = body := by
    have h12 : content.drop 12 = (content.drop 8).drop 4 := by rw [List.drop_drop]
    rw [h12, hrest8, List.drop_left' (u32be_length _)]
  rw [readIndexCore, if_neg (by rw [hsig]; simp), hver]
  rw [if_neg (by norm_num)]
  rw [hnum, hrest12]
  simp only [hbody, parseEntryList_ok (sortEntries idx.entries) hes 0]

/-- C2: for a well-formed index (fields in range, flags encoding the path
    length), WriteIndex followed by ReadIndex reproduces exactly the same
    set of (path, hash, mode, size, flags) tuples, ordered by path
    ascending; the counterexample shows the flags condition is needed. -/
theorem index_roundtrip_sorted (idx : Index) (hwf : indexWF idx) :
    ∃ file, WriteIndex idx = .ok file ∧
      ∃ es, readIndexData file = .ok { version := 2, entries := es } ∧
        es.Perm idx.entries ∧
        (es.map entryTuple).Perm (idx.entries.map entryTuple) ∧
        List.Sorted entryLe es := by
  obtain ⟨file, hw, hr⟩ := readIndexData_WriteIndex idx hwf
  exact ⟨file, hw, sortEntries idx.entries, hr,
         List.perm_insertionSort entryLe idx.entries,
         (List.perm_insertionSort entryLe idx.entries).map entryTuple,
         List.sorted_insertionSort entryLe idx.entries⟩

theorem index_roundtrip_witness :
    indexWF cRoundtripIndex ∧
    (∃ file, WriteIndex cRoundtripIndex = .ok file ∧
      ∃ es, readIndexData file = .ok { version := 2, entries := es } ∧
        es.Perm cRoundtripIndex.entries ∧
        (es.map entryTuple).Perm (cRoundtripIndex.entries.map entryTuple) ∧
        List.Sorted entryLe es) :=
  ⟨by decide, index_roundtrip_sorted cRoundtripIndex (by decide)⟩

theorem index_roundtrip_cex :
    (WriteIndex cBadIndex).map
        (fun f => (readIndexData f).map (fun j => j.entries.map (fun e => e.pathName)))
      = .ok (.ok [[]]) ∧
    cBadIndex.entries.map (fun e => e.pathName) = [[97]] ∧
    ([[]] : List Bytes) ≠ [[97]] := by decide

/-- C9: when the index file does not exist, ReadIndex returns a fresh empty
    version-2 index and no error. -/
theorem readIndex_missing :
    ReadIndex none = .ok { version := 2, entries := [] } ∧
    ({ version := 2, entries := [] } : Index).entries.length = 0 := by
  constructor
  · rfl
  · rfl

theorem serializeEntries_error (es : List IndexEntry)
    (h : ∃ e ∈ es, e.pathName.length > maxPathLength) :
    ∃ p, serializeEntries es = .error (.pathTooLong p) ∧ p.length > maxPathLength := by
  induction es with
  | nil => simp at h
  | cons e es ih =>
    by_cases he : e.pathName.length > maxPathLength
    · exact ⟨e.pathName, by rw [serializeEntries, if_pos he], he⟩
    · obtain ⟨x, hx, hxl⟩ := h
      rcases List.mem_cons.mp hx with hxe | hx'
      · subst hxe
        omega
      · obtain ⟨p, hp, hpl⟩ := ih ⟨x, hx', hxl⟩
        refine ⟨p, ?_, hpl⟩
        rw [serializeEntries, if_neg he, hp]

theorem setPackedFlags_clamp (e : IndexEntry) (stage len : Nat) (h : len > maxPathLength) :
    Nat.land (SetPackedFlags e stage len).flags maxPathLength = maxPathLength := by
  have hf : (SetPackedFlags e stage len).flags
      = Nat.lor ((Nat.land stage 3) <<< 12) (Nat.land maxPathLength maxPathLength) := by
    simp only [SetPackedFlags, if_pos h]
  rw [hf]
  have h3 : Nat.land stage 3 ≤ 3 := Nat.and_le_right
  set s := Nat.land stage 3 with hs
  interval_cases s <;> decide

/-- C10: WriteIndex rejects over-long paths; short paths never hit that
    branch; SetPackedFlags silently clamps. -/
theorem writeIndex_pathLength_guard :
    (∀ idx : Index, (∃ e ∈ idx.entries, e.pathName.length > maxPathLength) →
        ∃ p, WriteIndex idx = .error (.pathTooLong p) ∧ p.length > maxPathLength) ∧
    (∀ idx : Index, (∀ e ∈ idx.entries, e.pathName.length ≤ maxPathLength) →
        ∃ file, WriteIndex idx = .ok file) ∧
    (∀ (e : IndexEntry) (stage len : Nat), len > maxPathLength →
        Nat.land (SetPackedFlags e stage len).flags maxPathLength = maxPathLength) := by
  refine ⟨fun idx h => ?_, fun idx h => ?_, setPackedFlags_clamp⟩
  · obtain ⟨x, hx, hxl⟩ := h
    have hx' : x ∈ sortEntries idx.entries := by
      unfold sortEntries
      simp [hx]
    obtain ⟨p, hp, hpl⟩ := serializeEntries_error (sortEntries idx.entries) ⟨x, hx', hxl⟩
    refine ⟨p, ?_, hpl⟩
    rw [WriteIndex, hp]
  · have h' : ∀ e ∈ sortEntries idx.entries, e.pathName.length ≤ maxPathLength := by
      intro e hme
      apply h
      unfold sortEntries at hme
      simpa using hme
    refine ⟨(indexSignature ++ u32be idx.version ++
        u32be ((sortEntries idx.entries).length % u32mod) ++
        ((sortEntries idx.entries).map serializeEntry).flatten) ++
        sha1 (indexSignature ++ u32be idx.version ++
        u32be ((sortEntries idx.entries).length % u32mod) ++
        ((sortEntries idx.entries).map serializeEntry).flatten), ?_⟩
    rw [WriteIndex, serializeEntries_ok _ h']

theorem writeIndex_pathLength_guard_witness :
    (∃ p, WriteIndex cLongIndex = .error (.pathTooLong p) ∧ p.length > maxPathLength) ∧
    (∃ file, WriteIndex cBadIndex = .ok file) ∧
    Nat.land (SetPackedFlags cLongEntry 0 4096).flags maxPathLength = maxPathLength :=
  ⟨writeIndex_pathLength_guard.1 cLongIndex
      ⟨cLongEntry, by simp [cLongIndex], by
        simp only [cLongEntry, List.length_replicate, maxPathLength]
        omega⟩,
   writeIndex_pathLength_guard.2.1 cBadIndex (by decide),
   writeIndex_pathLength_guard.2.2 cLongEntry 0 4096 (by decide)⟩

theorem WriteIndex_shape (idx : Index) (file : Bytes) (h : WriteIndex idx = .ok file) :
    ∃ content, file = content ++ sha1 content ∧ 12 ≤ content.length := by
  rw [WriteIndex] at h
  cases hser : serializeEntries (sortEntries idx.entries) with
  | error e => rw [hser] at h; exact absurd h (by simp)
  | ok body =>
    rw [hser] at h
    simp only [Except.ok.injEq] at h
    refine ⟨indexSignature ++ u32be idx.version ++
        u32be ((sortEntries idx.entries).length % u32mod) ++ body, h.symm, ?_⟩
    simp [indexSignature, u32be, wordBytes]

/-- C5: flipping any single byte of a written index file outside the
    20-byte SHA-1 trailer (provided the recomputed digest differs, as the
    claim states) makes ReadIndex fail with the checksum-mismatch error. -/
theorem readIndex_detects_flip (idx : Index) (file : Bytes)
    (hfile : WriteIndex idx = .ok file) (i b : Nat) (hi : i + 20 < file.length)
    (hdiff : sha1 ((file.take (file.length - 20)).set i b)
           ≠ sha1 (file.take (file.length - 20))) :
    readIndexData (file.set i b) = .error .checksumMismatch := by
  obtain ⟨content, hfe, hcl⟩ := WriteIndex_shape idx file hfile
  subst hfe
  have hflen : (content ++ sha1 content).length = content.length + 20 := by
    simp [sha1_length]
  have hi' : i < content.length := by omega
  have htake : (content ++ sha1 content).take ((content ++ sha1 content).length - 20)
      = content := List.take_left' (by omega)
  rw [htake] at hdiff
  have hset : (content ++ sha1 content).set i b = (content.set i b) ++ sha1 content :=
    List.set_append_left i b hi'
  rw [hset]
  unfold readIndexData
  have hslen : (content.set i b ++ sha1 content).length = content.length + 20 := by
    simp [sha1_length, List.length_set]
  rw [if_neg (show ¬((content.set i b ++ sha1 content).length < 12) by omega)]
  rw [if_pos (show (content.set i b ++ sha1 content).length ≥ 32 by omega)]
  have ht2 : (content.set i b ++ sha1 content).take
      ((content.set i b ++ sha1 content).length - 20) = content.set i b :=
    List.take_left' (by rw [List.length_set]; omega)
  have hd2 : (content.set i b ++ sha1 content).drop
      ((content.set i b ++ sha1 content).length - 20) = sha1 content :=
    List.drop_left' (by rw [List.length_set]; omega)
  simp only [ht2, hd2]
  rw [if_pos hdiff]

theorem readIndex_detects_flip_witness :
    readIndexData (cEmptyIndexFile.set 0 99) = .error .checksumMismatch :=
  readIndex_detects_flip { version := 2, entries := [] } cEmptyIndexFile (by decide) 0 99
    (by decide) (by decide)

theorem hexOfBytes_length (h : Bytes) : (hexOfBytes h).length = 2 * h.length := by
  induction h with
  | nil => rfl
  | cons b bs ih =>
    simp [hexOfBytes] at ih ⊢
    omega

theorem diskLookup_none_not_mem (d : ObjDisk) (p : Bytes × Bytes)
    (h : diskLookup d p = none) : ∀ x ∈ d, x.1 ≠ p := by
  induction d with
  | nil => simp
  | cons y rest ih =>
    obtain ⟨q, c⟩ := y
    rw [diskLookup] at h
    by_cases hq : q = p
    · rw [if_pos hq] at h
      exact absurd h (by simp)
    · rw [if_neg hq] at h
      intro x hx
      rcases List.mem_cons.mp hx with hx1 | hx2
      · subst hx1
        exact hq
      · exact ih h x hx2

theorem diskLookup_some_mem (d : ObjDisk) (p : Bytes × Bytes) (c : ZBytes)
    (h : diskLookup d p = some c) : (p, c) ∈ d := by
  induction d with
  | nil => simp [diskLookup] at h
  | cons y rest ih =>
    obtain ⟨q, c'⟩ := y
    rw [diskLookup] at h
    by_cases hq : q = p
    · rw [if_pos hq] at h
      subst hq
      simp only [Option.some.injEq] at h
      subst h
      exact List.mem_cons_self _ _
    · rw [if_neg hq] at h
      exact List.mem_cons_of_mem _ (ih h)

theorem diskLookup_append_hit (d : ObjDisk) (p : Bytes × Bytes) (c : ZBytes)
    (h : diskLookup d p = none) : diskLookup (d ++ [(p, c)]) p = some c := by
  induction d with
  | nil => simp [diskLookup]
  | cons y rest ih =>
    obtain ⟨q, c'⟩ := y
    rw [diskLookup] at h
    by_cases hq : q = p
    · rw [if_pos hq] at h
      exact absurd h (by simp)
    · rw [if_neg hq] at h
      rw [List.cons_append, diskLookup, if_neg hq]
      exact ih h

theorem count_one_of_nodup_mem (d : ObjDisk) (p : Bytes × Bytes)
    (hnd : (d.map Prod.fst).Nodup) (hm : p ∈ d.map Prod.fst) :
    d.countP (fun x => decide (x.1 = p)) = 1 := by
  induction d with
  | nil => simp at hm
  | cons y rest ih =>
    simp only [List.map_cons, List.nodup_cons] at hnd
    rw [List.countP_cons]
    rcases List.mem_cons.mp hm with hp | hp
    · have hz : rest.countP (fun x => decide (x.1 = p)) = 0 := by
        rw [List.countP_eq_zero]
        intro a ha
        simp only [decide_eq_true_eq]
        intro hq
        have hmm : a.1 ∈ List.map Prod.fst rest := List.mem_map_of_mem Prod.fst ha
        rw [hq, hp] at hmm
        exact hnd.1 hmm
      rw [hz, ← hp]
      simp
    · have hq : y.1 ≠ p := fun hqe => hnd.1 (hqe ▸ hp)
      rw [ih hnd.2 hp]
      simp [hq]

/-- C6: writing the same object twice succeeds both times, the second write
    changes nothing, and exactly one file sits at the derived path. -/
theorem writeObject_idempotent (disk : ObjDisk) (obj : Object)
    (hlen : obj.hash.length = 20)
    (hnodup : (disk.map Prod.fst).Nodup) :
    ∃ d1, WriteObject disk obj = .ok d1 ∧ WriteObject d1 obj = .ok d1 ∧
      d1.countP (fun x => decide (x.1 = objectPath obj.hash)) = 1 := by
  have hhex : (hexOfBytes obj.hash).length = 40 := by
    rw [hexOfBytes_length, hlen]
  cases hl : diskLookup disk (objectPath obj.hash) with
  | some c =>
    refine ⟨disk, ?_, ?_, ?_⟩
    · rw [WriteObject, if_neg (by omega), hl]
    · rw [WriteObject, if_neg (by omega), hl]
    · exact count_one_of_nodup_mem disk _ hnodup
        (List.mem_map_of_mem Prod.fst (diskLookup_some_mem disk _ c hl) :)
  | none =>
    set d1 := disk ++ [(objectPath obj.hash, zlibCompress (obj.Header ++ obj.data))] with hd1
    have hhit : diskLookup d1 (objectPath obj.hash)
        = some (zlibCompress (obj.Header ++ obj.data)) :=
      diskLookup_append_hit disk _ _ hl
    refine ⟨d1, ?_, ?_, ?_⟩
    · rw [WriteObject, if_neg (by omega), hl]
    · rw [WriteObject, if_neg (by omega), hhit]
    · rw [hd1, List.countP_append]
      have hz : disk.countP (fun x => decide (x.1 = objectPath obj.hash)) = 0 := by
        rw [List.countP_eq_zero]
        intro a ha
        simp only [decide_eq_true_eq]
        exact diskLookup_none_not_mem disk _ hl a ha
      simp [hz]

theorem writeObject_idempotent_witness :
    ∃ d1, WriteObject [] cBlobObject = .ok d1 ∧ WriteObject d1 cBlobObject = .ok d1 ∧
      d1.countP (fun x => decide (x.1 = objectPath cBlobObject.hash)) = 1 :=
  writeObject_idempotent [] cBlobObject (by decide) (by decide)

instance : IsTotal TreeEntry nameLe := ⟨fun a b => bytesLe_total a.name b.name⟩

instance : IsTrans TreeEntry nameLe := ⟨fun _ _ _ => bytesLe_trans⟩

instance : IsTotal Bytes strLe := ⟨bytesLe_total⟩

instance : IsTrans Bytes strLe := ⟨fun _ _ _ => bytesLe_trans⟩

theorem writeObject_mem (d : ObjDisk) (obj : Object) (d' : ObjDisk)
    (h : WriteObject d obj = .ok d') :
    ∀ f ∈ d', f ∈ d ∨ f = objFile obj := by
  rw [WriteObject] at h
  by_cases hl : (hexOfBytes obj.hash).length ≠ 40
  · rw [if_pos hl] at h
    exact absurd h (by simp)
  · rw [if_neg hl] at h
    cases hlk : diskLookup d (objectPath obj.hash) with
    | some c =>
      rw [hlk] at h
      simp only [Except.ok.injEq] at h
      subst h
      intro f hf
      exact Or.inl hf
    | none =>
      rw [hlk] at h
      simp only [Except.ok.injEq] at h
      subst h
      intro f hf
      rcases List.mem_append.mp hf with hf1 | hf2
      · exact Or.inl hf1
      · simp only [List.mem_singleton] at hf2
        exact Or.inr hf2

theorem buildGo_emits (fuel : Nat) : ∀ task disk res, buildGo fuel task disk = some res →
    ∀ f ∈ bresDisk res, f ∈ disk ∨ ∃ es, f = objFile (NewTree es) := by
  induction fuel with
  | zero =>
    intro task disk res h
    simp [buildGo] at h
  | succ n ih =>
    intro task disk res h
    cases task with
    | level direct allSub pre =>
      simp only [buildGo] at h
      split at h
      · rename_i r1 disk1 dirEntries hsub
        split at h
        · rename_i disk2 hwo
          simp only [Option.some.injEq] at h
          subst h
          intro f hf
          rcases writeObject_mem disk1 _ disk2 hwo f hf with hin | hobj
          · rcases ih _ disk _ hsub f hin with hin0 | htree
            · exact Or.inl hin0
            · exact Or.inr htree
          · exact Or.inr ⟨_, hobj⟩
        · exact absurd h (by simp)
      · exact absurd h (by simp)
    | subdirs allSub names pre =>
      cases names with
      | nil =>
        simp only [buildGo, Option.some.injEq] at h
        subst h
        intro f hf
        exact Or.inl hf
      | cons nm ns =>
        simp only [buildGo] at h
        split at h
        · rename_i r1 disk1 subHash hlev
          split at h
          · rename_i r2 disk2 rest hrec
            simp only [Option.some.injEq] at h
            subst h
            intro f hf
            rcases ih _ disk1 _ hrec f hf with hin1 | htree
            · rcases ih _ disk _ hlev f hin1 with hin0 | htree0
              · exact Or.inl hin0
              · exact Or.inr htree0
            · exact Or.inr htree
          · exact absurd h (by simp)
        · exact absurd h (by simp)

/-- C3: every tree object the builder writes has its payload serialized in
    globally name-sorted order (files and directories in one sequence), and
    for the concrete staged set with both a file and a subdirectory at the
    root, the root tree interleaves them sorted by name. -/
theorem treeBuilder_serializes_sorted :
    (∀ fuel direct allSub disk pre disk2 root,
        buildTreeObjectsRecursive fuel direct allSub disk pre = some (disk2, root) →
        ∀ f ∈ disk2, f ∈ disk ∨ ∃ es, f = objFile (NewTree es) ∧
          (NewTree es).data = treePayload es ∧
          List.Sorted nameLe (sortTreeEntries es)) ∧
    (buildTreeObjectsRecursive 10 [([122, 46, 116, 120, 116], cZEntry)]
        [([97, 47, 98, 46, 116, 120, 116], cABEntry)] [] []
      = some ([objFile cT0, objFile cTA, objFile cRootTree], cRootTree.hash) ∧
     sortTreeEntries [cZTreeEntry, cADirEntry] = [cADirEntry, cZTreeEntry] ∧
     cRootTree.data = treePayload [cZTreeEntry, cADirEntry]) := by
  constructor
  · intro fuel direct allSub disk pre disk2 root hb f hf
    rw [buildTreeObjectsRecursive] at hb
    split at hb
    · rename_i d h hg
      simp only [Option.some.injEq, Prod.mk.injEq] at hb
      obtain ⟨hd, hr⟩ := hb
      subst hd
      rcases buildGo_emits fuel _ disk _ hg f hf with hin | ⟨es, hes⟩
      · exact Or.inl hin
      · exact Or.inr ⟨es, hes, rfl, List.sorted_insertionSort nameLe es⟩
    · exact absurd hb (by simp)
  · decide

theorem treeBuilder_serializes_sorted_witness :
    ∀ f ∈ [objFile cT0, objFile cTA, objFile cRootTree], f ∈ ([] : ObjDisk) ∨
      ∃ es, f = objFile (NewTree es) ∧
        (NewTree es).data = treePayload es ∧
        List.Sorted nameLe (sortTreeEntries es) :=
  treeBuilder_serializes_sorted.1 10 [([122, 46, 116, 120, 116], cZEntry)]
    [([97, 47, 98, 46, 116, 120, 116], cABEntry)] [] []
    [objFile cT0, objFile cTA, objFile cRootTree] cRootTree.hash (by decide)

/-- C8: evaluating the builder at the staged set with the single path
    "dir/sub/file.txt" shows the innermost emitted tree carries the entry
    "file.txt" with the fixed directory mode and the empty tree's hash
    instead of the staged file mode and blob hash. -/
theorem treeBuilder_nested_bug :
    buildTreeObjectsRecursive 8 []
        [([100, 105, 114, 47, 115, 117, 98, 47, 102, 105, 108, 101, 46, 116, 120, 116],
          cNestedEntry)] [] []
      = some ([objFile cN0, objFile cNFileTree, objFile cNSubTree, objFile cNRootTree],
              cNRootTree.hash) ∧
    cNFileTree.data
      = treePayload [⟨dirMode, [102, 105, 108, 101, 46, 116, 120, 116], cN0.hash⟩] ∧
    dirMode ≠ octal6 cNestedEntry.mode ∧
    cN0.hash ≠ cNestedEntry.hash := by decide

/-- C7: a callback returning the distinguished stop signal makes the walker
    stop early and report success. -/
theorem walkHistory_stop_success {σ : Type} (fuel : Nat) (repo : CommitRepo)
    (h : Bytes) (rest visited : List Bytes) (s : σ) (f : σ → Commit → σ × WalkRes)
    (hnv : h ∉ visited) (c : Commit) (hc : repoLookup repo h = some c)
    (hstop : (f s c).2 = .stop) :
    WalkHistory (fuel+1) repo (h :: rest) visited s f
      = some ((f s c).1, h :: visited, .ok ()) := by
  rw [WalkHistory, if_neg hnv, hc]
  dsimp only
  rw [hstop]

theorem walkHistory_stop_success_witness :
    WalkHistory 9 cChainRepo [cH3] [] () stopf = some ((), [cH3], .ok ()) :=
  walkHistory_stop_success 8 cChainRepo cH3 [] [] () stopf (by decide)
    (cCommit 3 [cH2]) (by decide) (by decide)

theorem walkBudget_mono (repo : CommitRepo) (v1 v2 : List Bytes)
    (h : ∀ x ∈ v1, x ∈ v2) : walkBudget repo v2 ≤ walkBudget repo v1 := by
  induction repo with
  | nil => exact Nat.le_refl _
  | cons y rest ih =>
    rw [walkBudget, walkBudget]
    by_cases h1 : y.1 ∈ v1
    · rw [if_pos h1]
      by_cases h2 : y.1 ∈ v2
      · rw [if_pos h2]
        omega
      · exact absurd (h _ h1) h2
    · rw [if_neg h1]
      by_cases h2 : y.1 ∈ v2
      · rw [if_pos h2]
        omega
      · rw [if_neg h2]
        omega

theorem walkBudget_cons (repo : CommitRepo) (visited : List Bytes) (h : Bytes) (c : Commit)
    (hl : repoLookup repo h = some c) (hnv : h ∉ visited) :
    walkBudget repo (h :: visited) + 1 + c.parents.length ≤ walkBudget repo visited := by
  induction repo with
  | nil => simp [repoLookup] at hl
  | cons y rest ih =>
    obtain ⟨k, c'⟩ := y
    rw [repoLookup] at hl
    rw [walkBudget, walkBudget]
    dsimp only
    by_cases hk : k = h
    · rw [if_pos hk] at hl
      simp only [Option.some.injEq] at hl
      subst hl
      subst hk
      rw [if_pos (List.mem_cons_self _ _), if_neg hnv]
      have hm := walkBudget_mono rest visited (k :: visited)
        (fun x hx => List.mem_cons_of_mem _ hx)
      omega
    · rw [if_neg hk] at hl
      have ihr := ih hl
      by_cases hkv : k ∈ visited
      · rw [if_pos hkv, if_pos (List.mem_cons_of_mem _ hkv)]
        omega
      · have hkv2 : k ∉ h :: visited := by
          simp only [List.mem_cons]
          push_neg
          exact ⟨hk, hkv⟩
        rw [if_neg hkv, if_neg hkv2]
        omega

theorem walk_master (repo : CommitRepo) (P : Bytes → Prop)
    (hclosed : repoClosed repo)
    (hstep : ∀ h c, P h → repoLookup repo h = some c → ∀ p ∈ c.parents, P p) :
    ∀ fuel queue visited s,
      (∀ q ∈ queue, ∃ c, repoLookup repo q = some c) →
      (∀ q ∈ queue, P q) →
      (∀ x ∈ visited, P x) →
      visited.Nodup →
      (∀ x ∈ visited, ∀ c, repoLookup repo x = some c →
          ∀ p ∈ c.parents, p ∈ visited ∨ p ∈ queue) →
      queue.length + walkBudget repo visited + 1 ≤ fuel →
      ∃ newV,
        WalkHistory fuel repo queue visited s logf
          = some (s ++ newV.reverse.map (fun q => (repoLookup repo q).getD defaultCommit),
                  newV ++ visited, .ok ()) ∧
        (newV ++ visited).Nodup ∧
        (∀ x ∈ newV, P x) ∧
        (∀ q ∈ queue, q ∈ newV ++ visited) ∧
        (∀ x ∈ newV ++ visited, ∀ c, repoLookup repo x = some c →
            ∀ p ∈ c.parents, p ∈ newV ++ visited) := by
  intro fuel
  induction fuel with
  | zero =>
    intro queue visited s _ _ _ _ _ hfuel
    omega
  | succ n ih =>
    intro queue visited s hqrepo hqP hvP hvnd hvcl hfuel
    cases queue with
    | nil =>
      refine ⟨[], ?_, by simpa using hvnd, by simp, by simp, ?_⟩
      · rw [WalkHistory]
        simp
      · intro x hx c hc p hp
        simp only [List.nil_append] at hx ⊢
        rcases hvcl x hx c hc p hp with h1 | h2
        · exact h1
        · simp at h2
    | cons h rest =>
      by_cases hv : h ∈ visited
      · have hfe : WalkHistory (n+1) repo (h :: rest) visited s logf
            = WalkHistory n repo rest visited s logf := by
          rw [WalkHistory, if_pos hv]
        obtain ⟨newV, hres, hnd, hP, hcov, hcl⟩ := ih rest visited s
          (fun q hq => hqrepo q (List.mem_cons_of_mem _ hq))
          (fun q hq => hqP q (List.mem_cons_of_mem _ hq))
          hvP hvnd
          (fun x hx c hc p hp => by
            rcases hvcl x hx c hc p hp with h1 | h2
            · exact Or.inl h1
            · rcases List.mem_cons.mp h2 with h3 | h4
              · exact Or.inl (h3 ▸ hv)
              · exact Or.inr h4)
          (by simp only [List.length_cons] at hfuel; omega)
        refine ⟨newV, by rw [hfe]; exact hres, hnd, hP, ?_, hcl⟩
        intro q hq
        rcases List.mem_cons.mp hq with h1 | h2
        · exact h1 ▸ List.mem_append_right _ hv
        · exact hcov q h2
      · obtain ⟨c, hc⟩ := hqrepo h (List.mem_cons_self _ _)
        have hPh : P h := hqP h (List.mem_cons_self _ _)
        have hfe : WalkHistory (n+1) repo (h :: rest) visited s logf
            = WalkHistory n repo
                (rest ++ c.parents.filter (fun p => !((h :: visited).contains p)))
                (h :: visited) (s ++ [c]) logf := by
          rw [WalkHistory, if_neg hv, hc]
          rfl
        have hqrepo2 : ∀ q ∈ rest ++ c.parents.filter (fun p => !((h :: visited).contains p)),
            ∃ c2, repoLookup repo q = some c2 := by
          intro q hq
          rcases List.mem_append.mp hq with h1 | h2
          · exact hqrepo q (List.mem_cons_of_mem _ h1)
          · exact hclosed h c hc q (List.mem_of_mem_filter h2)
        have hqP2 : ∀ q ∈ rest ++ c.parents.filter (fun p => !((h :: visited).contains p)),
            P q := by
          intro q hq
          rcases List.mem_append.mp hq with h1 | h2
          · exact hqP q (List.mem_cons_of_mem _ h1)
          · exact hstep h c hPh hc q (List.mem_of_mem_filter h2)
        have hvP2 : ∀ x ∈ h :: visited, P x := by
          intro x hx
          rcases List.mem_cons.mp hx with h1 | h2
          · exact h1 ▸ hPh
          · exact hvP x h2
        have hvnd2 : (h :: visited).Nodup := List.nodup_cons.mpr ⟨hv, hvnd⟩
        have hvcl2 : ∀ x ∈ h :: visited, ∀ c2, repoLookup repo x = some c2 →
            ∀ p ∈ c2.parents, p ∈ h :: visited ∨
              p ∈ rest ++ c.parents.filter (fun p => !((h :: visited).contains p)) := by
          intro x hx c2 hc2 p hp
          rcases List.mem_cons.mp hx with h1 | h2
          · rw [h1, hc] at hc2
            simp only [Option.some.injEq] at hc2
            subst hc2
            by_cases hpv : p ∈ h :: visited
            · exact Or.inl hpv
            · refine Or.inr (List.mem_append_right _ (List.mem_filter.mpr ⟨hp, ?_⟩))
              simpa using hpv
          · rcases hvcl x h2 c2 hc2 p hp with h3 | h4
            · exact Or.inl (List.mem_cons_of_mem _ h3)
            · rcases List.mem_cons.mp h4 with h5 | h6
              · exact Or.inl (h5 ▸ List.mem_cons_self _ _)
              · exact Or.inr (List.mem_append_left _ h6)
        have hfuel2 : (rest ++ c.parents.filter (fun p => !((h :: visited).contains p))).length
            + walkBudget repo (h :: visited) + 1 ≤ n := by
          have hb := walkBudget_cons repo visited h c hc hv
          have hfl : (c.parents.filter (fun p => !((h :: visited).contains p))).length
              ≤ c.parents.length := List.length_filter_le _ _
          simp only [List.length_cons, List.length_append] at hfuel ⊢
          omega
        obtain ⟨newV, hres, hnd, hP, hcov, hcl⟩ :=
          ih _ (h :: visited) (s ++ [c]) hqrepo2 hqP2 hvP2 hvnd2 hvcl2 hfuel2
        have hcm : (repoLookup repo h).getD defaultCommit = c := by
          rw [hc]
          rfl
        refine ⟨newV ++ [h], ?_, ?_, ?_, ?_, ?_⟩
        · rw [hfe, hres]
          simp [List.reverse_append, List.append_assoc, hcm]
        · rw [List.append_assoc]
          exact hnd
        · intro x hx
          rcases List.mem_append.mp hx with h1 | h2
          · exact hP x h1
          · simp only [List.mem_singleton] at h2
            exact h2 ▸ hPh
        · intro q hq
          rw [List.append_assoc]
          rcases List.mem_cons.mp hq with h1 | h2
          · exact h1 ▸ List.mem_append_right _ (List.mem_cons_self _ _)
          · exact hcov q (List.mem_append_left _ h2)
        · intro x hx c2 hc2 p hp
          rw [List.append_assoc] at hx ⊢
          exact hcl x hx c2 hc2 p hp

theorem repoLookup_mem (repo : CommitRepo) (h : Bytes) (c : Commit)
    (hl : repoLookup repo h = some c) : (h, c) ∈ repo := by
  induction repo with
  | nil => simp [repoLookup] at hl
  | cons y rest ih =>
    obtain ⟨k, c'⟩ := y
    rw [repoLookup] at hl
    by_cases hk : k = h
    · rw [if_pos hk] at hl
      simp only [Option.some.injEq] at hl
      subst hk
      subst hl
      exact List.mem_cons_self _ _
    · rw [if_neg hk] at hl
      exact List.mem_cons_of_mem _ (ih hl)

theorem repoLookup_total (repo : CommitRepo) (p : Bytes)
    (hm : p ∈ repo.map Prod.fst) : ∃ c2, repoLookup repo p = some c2 := by
  induction repo with
  | nil => simp at hm
  | cons y rest ih =>
    rw [repoLookup]
    by_cases hk : y.1 = p
    · exact ⟨y.2, by rw [if_pos hk]⟩
    · have h2 : p ∈ rest.map Prod.fst := by
        simp only [List.map_cons, List.mem_cons] at hm
        rcases hm with h1 | h2
        · exact absurd h1.symm hk
        · exact h2
      obtain ⟨c2, hc2⟩ := ih h2
      exact ⟨c2, by rw [if_neg hk]; exact hc2⟩

/-- A repository whose stored parents all appear among its keys is closed. -/
theorem repoClosed_of_parents_present (repo : CommitRepo)
    (h : ∀ x ∈ repo, ∀ p ∈ x.2.parents, p ∈ repo.map Prod.fst) : repoClosed repo :=
  fun hh c hl p hp => repoLookup_total repo p (h (hh, c) (repoLookup_mem _ _ _ hl) p hp)

/-- C4: the walker invokes the callback exactly once per commit reachable
    from the start hash (the recorded log enumerates a duplicate-free list
    of exactly the reachable hashes) and terminates within the computed
    fuel; concretely, the chain C3 -> C2 -> C1 is visited in order C3, C2,
    C1, also with a duplicated parent reference, and a two-cycle
    terminates. -/
theorem walkHistory_visits_reachable_once :
    (∀ repo start c0, repoClosed repo → repoLookup repo start = some c0 →
      ∃ V, WalkHistory (walkBudget repo [] + 2) repo [start] [] [] logf
          = some (V.reverse.map (fun q => (repoLookup repo q).getD defaultCommit),
                  V, .ok ()) ∧
        V.Nodup ∧ (∀ x, x ∈ V ↔ Reach repo start x)) ∧
    WalkHistory 9 cChainRepo [cH3] [] [] logf
      = some ([cCommit 3 [cH2], cCommit 2 [cH1], cCommit 1 []], [cH1, cH2, cH3], .ok ()) ∧
    WalkHistory 9 cDupRepo [cH3] [] [] logf
      = some ([cCommit 3 [cH2, cH1], cCommit 2 [cH1], cCommit 1 []], [cH1, cH2, cH3], .ok ()) ∧
    WalkHistory 9 cCycleRepo [cH1] [] [] logf
      = some ([cCommit 1 [cH2], cCommit 2 [cH1]], [cH2, cH1], .ok ()) := by
  refine ⟨?_, by decide, by decide, by decide⟩
  intro repo start c0 hclosed hc0
  obtain ⟨newV, hres, hnd, hP, hcov, hcl⟩ :=
    walk_master repo (Reach repo start) hclosed
      (fun h c hr hl p hp => Reach.step hr hl hp)
      (walkBudget repo [] + 2) [start] [] []
      (fun q hq => by
        simp only [List.mem_singleton] at hq
        exact ⟨c0, hq ▸ hc0⟩)
      (fun q hq => by
        simp only [List.mem_singleton] at hq
        exact hq ▸ Reach.refl)
      (by simp) List.nodup_nil (by simp)
      (by simp only [List.length_singleton]; omega)
  refine ⟨newV, by simpa using hres, by simpa using hnd, fun x => ⟨?_, ?_⟩⟩
  · intro hx
    exact hP x hx
  · intro hreach
    have hmem : ∀ y, Reach repo start y → y ∈ newV ++ [] := by
      intro y hy
      induction hy with
      | refl => exact hcov start (List.mem_singleton.mpr rfl)
      | step hr hl hp ih => exact hcl _ ih _ hl _ hp
    simpa using hmem x hreach

theorem walkHistory_visits_reachable_once_witness :
    ∃ V, WalkHistory (walkBudget cChainRepo [] + 2) cChainRepo [cH3] [] [] logf
        = some (V.reverse.map (fun q => (repoLookup cChainRepo q).getD defaultCommit),
                V, .ok ()) ∧
      V.Nodup ∧ (∀ x, x ∈ V ↔ Reach cChainRepo cH3 x) :=
  walkHistory_visits_reachable_once.1 cChainRepo cH3 (cCommit 3 [cH2])
    (repoClosed_of_parents_present cChainRepo (by decide))
    (by decide)

theorem commitFinish_keeps_index (repo : GitRepo) (objects1 : ObjDisk) (rt : Bytes)
    (parent : Option Bytes) (branchRef : Option Bytes) (msg : Bytes)
    (t : Nat) (off : Int) (repo2 : GitRepo) (h : Bytes)
    (hcf : commitFinish repo objects1 rt parent branchRef msg t off = .committed repo2 h) :
    repo2.indexFile = repo.indexFile := by
  unfold commitFinish at hcf
  split at hcf
  · exact absurd hcf (by simp)
  · split at hcf <;>
    · simp only [CommitOutcome.committed.injEq] at hcf
      rw [← hcf.1]

set_option maxHeartbeats 4000000 in
/-- C1: a successful commitCmd.Run never touches the index file, so the
    staging index is NOT truncated: reading it immediately afterwards
    yields exactly the pre-commit entries.  Evaluated at a one-entry index,
    the commit succeeds and the index still holds one entry, not zero. -/
theorem commitRun_keeps_index :
    (∀ fuel msg t off repo repo2 h,
        commitRun fuel msg t off repo = .committed repo2 h →
        repo2.indexFile = repo.indexFile ∧
        ReadIndex repo2.indexFile = ReadIndex repo.indexFile) ∧
    commitRun 4 [109] 0 0 cC1Repo = .committed cC1Repo2 cC1Hash ∧
    cC1Repo2.indexFile = cC1Repo.indexFile ∧
    (ReadIndex cC1Repo2.indexFile).map (fun i => (Index.entries i).length) = .ok 1 ∧
    (1 : Nat) ≠ 0 := by
  refine ⟨?_, by decide, by decide, by decide, by decide⟩
  intro fuel msg t off repo repo2 h hc
  suffices hidx : repo2.indexFile = repo.indexFile by
    exact ⟨hidx, by rw [hidx]⟩
  unfold commitRun at hc
  split at hc <;>
    (try split at hc) <;>
    (try split at hc) <;>
    (try split at hc) <;>
    (try split at hc) <;>
    (try split at hc) <;>
    (try split at hc) <;>
    (try split at hc) <;>
    (try split at hc) <;>
    first
      | exact commitFinish_keeps_index _ _ _ _ _ _ _ _ _ _ hc
      | exact absurd hc (by simp)

set_option maxHeartbeats 4000000 in
theorem commitRun_keeps_index_witness :
    cC1Repo2.indexFile = cC1Repo.indexFile ∧
    ReadIndex cC1Repo2.indexFile = ReadIndex cC1Repo.indexFile :=
  commitRun_keeps_index.1 4 [109] 0 0 cC1Repo cC1Repo2 cC1Hash (by decide)

end FseGit

